import Mathlib

/-!
Verification of the bulk ingestion subsystem of a Go client for a
text-line search index (file `sonic/ingester.go`).

Go strings are modelled as lists of bytes (`List Nat`, each element a
byte value below 256).  Machine integers are modelled as `Nat`/`Int`
with Go's truncating division matching `Nat` division on non-negative
operands.  Functions of the source that can panic or diverge on bad
inputs are modelled as `Option`-returning functions driven by an
explicit fuel bound; `none` models a panic or an infinite loop.
-/

set_option maxHeartbeats 1000000
set_option maxRecDepth 8192

namespace Sonic

/-- `utf8.RuneStart` from the Go standard library: `b&0xC0 != 0x80`. -/
def runeStart (b : Nat) : Bool := b &&& 192 != 128

/-- A UTF-8 continuation byte (`10xxxxxx`). -/
def isCont (c : Nat) : Prop := 128 ≤ c ∧ c < 192

instance (c : Nat) : Decidable (isCont c) := by unfold isCont; infer_instance

/-- Structurally valid UTF-8: a sequence of character encodings, each a
leading byte of the appropriate class followed by the matching number of
continuation bytes (one to four bytes per character). -/
inductive ValidUtf8 : List Nat → Prop
  | nil : ValidUtf8 []
  | ascii (b : Nat) (rest : List Nat) :
      b < 128 → ValidUtf8 rest → ValidUtf8 (b :: rest)
  | two (b c1 : Nat) (rest : List Nat) :
      192 ≤ b → b < 224 → isCont c1 → ValidUtf8 rest →
      ValidUtf8 (b :: c1 :: rest)
  | three (b c1 c2 : Nat) (rest : List Nat) :
      224 ≤ b → b < 240 → isCont c1 → isCont c2 → ValidUtf8 rest →
      ValidUtf8 (b :: c1 :: c2 :: rest)
  | four (b c1 c2 c3 : Nat) (rest : List Nat) :
      240 ≤ b → b < 248 → isCont c1 → isCont c2 → isCont c3 → ValidUtf8 rest →
      ValidUtf8 (b :: c1 :: c2 :: c3 :: rest)

/-- The inner loop of `splitText`: `for !utf8.RuneStart(longString[r]) { r-- }`.
Starting from index `r` the walk moves left until it reaches a byte on
which a UTF-8 character starts.  Reading outside the string, or stepping
below index 0, is a panic in Go and is modelled as `none`. -/
def walkBack (s : List Nat) : Nat → Option Nat
  | 0 =>
    if 0 < s.length then
      if runeStart (s.getD 0 0) then some 0 else none
  else none
  | rr + 1 =>
    if rr + 1 < s.length then
      if runeStart (s.getD (rr + 1) 0) then some (rr + 1)
      else walkBack s rr
    else none

/-- The loop of `splitText`, with an explicit fuel bound on the number of
iterations; `none` models an execution that panics or never leaves the
loop.  Go's slice `longString[l:r]` is `(s.drop l).take (r - l)`.
The loop state keeps the invariant `r = l + maxLen`. -/
def splitTextAux (s : List Nat) (maxLen : Nat) : Nat → Nat → Nat → Option (List (List Nat))
  | 0, _, _ => none
  | fuel + 1, l, r =>
    if r < s.length then
      match walkBack s r with
      | none => none
      | some rr =>
        match splitTextAux s maxLen fuel rr (rr + maxLen) with
        | none => none
        | some rest => some (((s.drop l).take (rr - l)) :: rest)
    else
      some [s.drop l]

/-- `splitText` from `ingester.go`: split `longString` into chunks of at
most `maxLen` bytes, walking each split point back onto a rune start.
With at least `length + 1` units of fuel every terminating execution of
the Go loop is reproduced (each iteration emits a chunk that consumes at
least one byte); executions in which the Go code loops forever or panics
yield `none`. -/
def splitText (longString : List Nat) (maxLen : Nat) : Option (List (List Nat)) :=
  splitTextAux longString maxLen (longString.length + 1) 0 maxLen

/-- `strings.Replace(s, old, new, -1)` with an explicit fuel bound; the
source only calls it with non-empty single-byte `old` patterns, for
which `fuel = s.length` always suffices. -/
def stringsReplaceFuel : Nat → List Nat → List Nat → List Nat → List Nat
  | 0, s, _, _ => s
  | _ + 1, [], _, _ => []
  | fuel + 1, c :: rest, old, new =>
    if (c :: rest).take old.length = old ∧ old ≠ [] then
      new ++ stringsReplaceFuel fuel (rest.drop (old.length - 1)) old new
    else
      c :: stringsReplaceFuel fuel rest old new

/-- `strings.Replace(s, old, new, -1)`: replace every non-overlapping
occurrence of `old` in `s` by `new`, scanning left to right. -/
def stringsReplace (s old new : List Nat) : List Nat :=
  stringsReplaceFuel s.length s old new

/-- The escaping patterns of `Push` (lines 102-107): backslash to double
backslash, newline to the literal `\n` escape, double quote to escaped
double quote, applied in this order. -/
def pushPatterns : List (List Nat × List Nat) :=
  [([92], [92, 92]), ([10], [92, 110]), ([34], [92, 34])]

/-- The escaping loop of `Push` (lines 108-110): fold the three
replacements over the text in order. -/
def pushEscape (text : List Nat) : List Nat :=
  pushPatterns.foldl (fun t pr => stringsReplace t pr.1 pr.2) text

/-- Byte-level view of the composite escaping: what the three sequential
replacements of `Push` do to each input byte. -/
def escByte (c : Nat) : List Nat :=
  if c = 92 then [92, 92]
  else if c = 10 then [92, 110]
  else if c = 34 then [92, 34]
  else [c]

/-- Modelled from the spec: the inverse of the escaping applied by
`Push` ("re-joining the emitted chunks (after reversing escaping)
reproduces the original text"); no decoder exists in the repository, so
this follows the spec's escape table: a backslash followed by a
backslash, `n`, or double quote decodes to backslash, newline, or double
quote respectively. -/
def unescape : List Nat → List Nat
  | [] => []
  | [c] => [c]
  | c1 :: c2 :: rest =>
    if c1 = 92 then
      if c2 = 92 then 92 :: unescape rest
      else if c2 = 110 then 10 :: unescape rest
      else if c2 = 34 then 34 :: unescape rest
      else c1 :: unescape (c2 :: rest)
    else c1 :: unescape (c2 :: rest)

/-- `IngestBulkRecord` from `ingester.go`. -/
structure IngestBulkRecord where
  object : List Nat
  text : List Nat
deriving DecidableEq

/-- Modelled from the spec: the error kinds of section 7 (the concrete
`error` values — `ErrClosed` and transport-level I/O errors — live in
driver code that is not part of this file's source). -/
inductive ErrKind
  | closed
  | transport
deriving DecidableEq

/-- `IngestBulkError` from `ingester.go`, with the error field restricted
to the spec's error kinds. -/
structure IngestBulkError where
  object : List Nat
  error : ErrKind
deriving DecidableEq

/-- `addBulkError` (lines 331-335): append one error to the shared
collection.  The mutex makes the append atomic with respect to other
workers; sequential models below call it directly, and the interleaving
model `runBulkSched` treats each call as one atomic step. -/
def addBulkError (e : List IngestBulkError) (record : IngestBulkRecord) (err : ErrKind) :
    List IngestBulkError :=
  e ++ [⟨record.object, err⟩]

/-- `divideIngestBulkRecords` loop with explicit fuel; the loop advances
`i` by `chunkSize` each iteration, so `records.length + 1` units of fuel
cover every terminating execution (when `chunkSize` is zero and the
record list non-empty the Go code never terminates, modelled by fuel
exhaustion returning the partitions emitted so far — the callers always
supply `chunkSize ≥ 1` in that situation). -/
def divideAux (records : List IngestBulkRecord) (chunkSize : Nat) : Nat → Nat → List (List IngestBulkRecord)
  | 0, _ => []
  | fuel + 1, i =>
    if i < records.length then
      ((records.drop i).take
          ((if records.length < i + chunkSize then records.length else i + chunkSize) - i)) ::
        divideAux records chunkSize fuel (i + chunkSize)
    else []

/-- `divideIngestBulkRecords` (lines 318-329): split the records into
contiguous chunks of `ceil(len/parallelRoutines)` records each. -/
def divideIngestBulkRecords (records : List IngestBulkRecord) (parallelRoutines : Nat) :
    List (List IngestBulkRecord) :=
  divideAux records ((records.length + parallelRoutines - 1) / parallelRoutines)
    (records.length + 1) 0

/-- The partitions a `BulkPush`/`BulkPop` call spawns workers for:
the requested parallelism (a Go `int`) is clamped to 1 when
non-positive (lines 153-155), then the records are divided. -/
def bulkPushPartitions (records : List IngestBulkRecord) (parallelRoutines : Int) :
    List (List IngestBulkRecord) :=
  divideIngestBulkRecords records (if parallelRoutines ≤ 0 then 1 else parallelRoutines).toNat

/-- Modelled from the spec: the outcome of one `write`/`read` exchange on
a connection adapter (section 4.2: `write(line) -> Ok | IOError`,
`read() -> Line | IOError`); `none` is success. -/
structure ChunkOutcome where
  writeErr : Option ErrKind
  readErr : Option ErrKind
deriving DecidableEq

/-- The chunk loop of `Push` (lines 114-126): send each chunk and read
one acknowledgement; return the first error encountered, or success. -/
def pushLoop : List ChunkOutcome → Option ErrKind
  | [] => none
  | io :: rest =>
    match io.writeErr with
    | some e => some e
    | none =>
      match io.readErr with
      | some e => some e
      | none => pushLoop rest

/-- Modelled from the spec: the transport outcomes one record can meet in
a `BulkPush` worker — the per-chunk outcomes of the `Push` call on the
shared driver connection, then the outcome of the extra `conn.read()`
on the worker's own connection. -/
structure RecordOutcome where
  chunkOutcomes : List ChunkOutcome
  ackErr : Option ErrKind
deriving DecidableEq

/-- The record loop of a `BulkPush` worker (lines 170-184): when the
worker's connection is nil an `ErrClosed` error is appended, and the
worker nevertheless falls through to `Push`; a `Push` error appends one
error and continues to the next record; otherwise the acknowledgement
read may append one error.  The connection behaviour is supplied as an
oracle per record. -/
def bulkPushWorker (connOk : Bool) :
    List IngestBulkError → List (IngestBulkRecord × RecordOutcome) → List IngestBulkError
  | errs, [] => errs
  | errs, (record, io) :: rest =>
    let errs1 := if connOk then errs else addBulkError errs record ErrKind.closed
    match pushLoop io.chunkOutcomes with
    | some e => bulkPushWorker connOk (addBulkError errs1 record e) rest
    | none =>
      match io.ackErr with
      | some e => bulkPushWorker connOk (addBulkError errs1 record e) rest
      | none => bulkPushWorker connOk errs1 rest

/-- The record loop of a `BulkPop` worker (lines 225-242): one write and
one read per record, same error handling as the push worker. -/
def bulkPopWorker (connOk : Bool) :
    List IngestBulkError → List (IngestBulkRecord × ChunkOutcome) → List IngestBulkError
  | errs, [] => errs
  | errs, (record, io) :: rest =>
    let errs1 := if connOk then errs else addBulkError errs record ErrKind.closed
    match io.writeErr with
    | some e => bulkPopWorker connOk (addBulkError errs1 record e) rest
    | none =>
      match io.readErr with
      | some e => bulkPopWorker connOk (addBulkError errs1 record e) rest
      | none => bulkPopWorker connOk errs1 rest

/-- `BulkPush` (lines 152-191) under one representative worker schedule:
clamp the parallelism, divide the records, run one worker per partition
(worker `w` gets connection outcome `connOk w`), and collect the error
lists; the cross-worker interleaving of appends is studied separately by
`runBulkSched`. -/
def bulkPushErrors (records : List IngestBulkRecord) (parallelRoutines : Int)
    (connOk : Nat → Bool) (io : IngestBulkRecord → RecordOutcome) : List IngestBulkError :=
  let divided := bulkPushPartitions records parallelRoutines
  ((List.range divided.length).map
    (fun w => bulkPushWorker (connOk w) [] ((divided.getD w []).map (fun r => (r, io r))))).flatten

/-- `BulkPop` (lines 207-249) under one representative worker schedule. -/
def bulkPopErrors (records : List IngestBulkRecord) (parallelRoutines : Int)
    (connOk : Nat → Bool) (io : IngestBulkRecord → ChunkOutcome) : List IngestBulkError :=
  let divided := bulkPushPartitions records parallelRoutines
  ((List.range divided.length).map
    (fun w => bulkPopWorker (connOk w) [] ((divided.getD w []).map (fun r => (r, io r))))).flatten

/-- One scheduler step of the concurrent error collection: worker `w`
(if it still has a pending error) performs one `addBulkError`, atomic
because `addBulkError` holds the mutex for the whole append. -/
def runBulkStep (pending : List (List IngestBulkError)) (acc : List IngestBulkError) (w : Nat) :
    Option (List (List IngestBulkError) × List IngestBulkError) :=
  match pending.getD w [] with
  | [] => none
  | e :: rest => some (pending.set w rest, acc ++ [e])

/-- The dispatcher of `BulkPush`/`BulkPop` as an interleaving model: the
schedule says which worker appends next; the accumulated collection is
returned only once every worker has emitted all its errors (the
`WaitGroup` join) — an incomplete schedule yields no result. -/
def runBulkSched : List Nat → List (List IngestBulkError) → List IngestBulkError →
    Option (List IngestBulkError)
  | [], pending, acc => if pending.all List.isEmpty then some acc else none
  | w :: sched, pending, acc =>
    match runBulkStep pending acc w with
    | some (p, a) => runBulkSched sched p a
    | none => none

/-! ### Byte-class facts about `runeStart` -/

theorem runeStart_of_ascii : ∀ b, b < 128 → runeStart b = true := by decide

theorem runeStart_of_lead : ∀ b, b < 248 → 192 ≤ b → runeStart b = true := by decide

theorem runeStart_of_cont : ∀ c, c < 192 → 128 ≤ c → runeStart c = false := by decide

theorem getD_drop (s : List Nat) : ∀ (n k : Nat), (s.drop n).getD k 0 = s.getD (n + k) 0 := by
  induction s with
  | nil => intro n k; simp
  | cons c t ih =>
    intro n k
    cases n with
    | zero => simp
    | succ n => rw [Nat.succ_add]; exact ih n k

/-! ### The backward walk -/

theorem walkBack_some (s : List Nat) :
    ∀ r rr, walkBack s r = some rr →
      rr ≤ r ∧ rr < s.length ∧ runeStart (s.getD rr 0) = true := by
  intro r
  induction r with
  | zero =>
    intro rr h
    simp only [walkBack] at h
    by_cases h0 : 0 < s.length
    · rw [if_pos h0] at h
      by_cases hrs : runeStart (s.getD 0 0) = true
      · rw [if_pos hrs] at h
        cases h
        exact ⟨Nat.le_refl _, h0, hrs⟩
      · rw [if_neg hrs] at h; cases h
    · rw [if_neg h0] at h; cases h
  | succ r ih =>
    intro rr h
    simp only [walkBack] at h
    by_cases h0 : r + 1 < s.length
    · rw [if_pos h0] at h
      by_cases hrs : runeStart (s.getD (r + 1) 0) = true
      · rw [if_pos hrs] at h
        cases h
        exact ⟨Nat.le_refl _, h0, hrs⟩
      · rw [if_neg hrs] at h
        obtain ⟨h1, h2, h3⟩ := ih rr h
        exact ⟨Nat.le_succ_of_le h1, h2, h3⟩
    · rw [if_neg h0] at h; cases h

theorem walkBack_exists (s : List Nat) :
    ∀ r, r < s.length → ∀ j, j ≤ r → runeStart (s.getD j 0) = true →
      ∃ rr, walkBack s r = some rr ∧ j ≤ rr := by
  intro r
  induction r with
  | zero =>
    intro hr j hj hrs
    have hj0 : j = 0 := Nat.le_zero.mp hj
    subst hj0
    refine ⟨0, ?_, Nat.le_refl 0⟩
    simp only [walkBack, if_pos hr, if_pos hrs]
  | succ r ih =>
    intro hr j hj hrs
    by_cases hcur : runeStart (s.getD (r + 1) 0) = true
    · refine ⟨r + 1, ?_, hj⟩
      simp only [walkBack, if_pos hr, if_pos hcur]
    · have hjr : j ≤ r := by
        rcases Nat.eq_or_lt_of_le hj with h | h
        · exact absurd (h ▸ hrs) hcur
        · omega
      obtain ⟨rr, hw, hle⟩ := ih (by omega) j hjr hrs
      refine ⟨rr, ?_, hle⟩
      simp only [walkBack, if_pos hr, if_neg hcur]
      exact hw

/-! ### Structure of valid UTF-8 -/

theorem nearest_start (s : List Nat) (hv : ValidUtf8 s) :
    ∀ r, r < s.length →
      ∃ j, j ≤ r ∧ r ≤ j + 3 ∧ j < s.length ∧ runeStart (s.getD j 0) = true := by
  induction hv with
  | nil => intro r hr; simp at hr
  | ascii b rest hb _ ih =>
    intro r hr
    cases r with
    | zero =>
      exact ⟨0, Nat.le_refl _, by omega, by simp, by simpa using runeStart_of_ascii b hb⟩
    | succ r =>
      obtain ⟨j, h1, h2, h3, h4⟩ := ih r (by simpa using hr)
      exact ⟨j + 1, by omega, by omega, by simpa using h3, by simpa using h4⟩
  | two b c1 rest hb1 hb2 hc1 _ ih =>
    intro r hr
    by_cases hsm : r ≤ 1
    · exact ⟨0, by omega, by omega, by simp,
        by simpa using runeStart_of_lead b (by omega) hb1⟩
    · obtain ⟨k, rfl⟩ : ∃ k, r = k + 2 := ⟨r - 2, by omega⟩
      obtain ⟨j, h1, h2, h3, h4⟩ := ih k (by simp at hr; omega)
      exact ⟨j + 2, by omega, by omega, by simp; omega, by simpa using h4⟩
  | three b c1 c2 rest hb1 hb2 hc1 hc2 _ ih =>
    intro r hr
    by_cases hsm : r ≤ 2
    · exact ⟨0, by omega, by omega, by simp,
        by simpa using runeStart_of_lead b (by omega) (by omega)⟩
    · obtain ⟨k, rfl⟩ : ∃ k, r = k + 3 := ⟨r - 3, by omega⟩
      obtain ⟨j, h1, h2, h3, h4⟩ := ih k (by simp at hr; omega)
      exact ⟨j + 3, by omega, by omega, by simp; omega, by simpa using h4⟩
  | four b c1 c2 c3 rest hb1 hb2 hc1 hc2 hc3 _ ih =>
    intro r hr
    by_cases hsm : r ≤ 3
    · exact ⟨0, by omega, by omega, by simp,
        by simpa using runeStart_of_lead b (by omega) (by omega)⟩
    · obtain ⟨k, rfl⟩ : ∃ k, r = k + 4 := ⟨r - 4, by omega⟩
      obtain ⟨j, h1, h2, h3, h4⟩ := ih k (by simp at hr; omega)
      exact ⟨j + 4, by omega, by omega, by simp; omega, by simpa using h4⟩

theorem validUtf8_split (s : List Nat) (hv : ValidUtf8 s) :
    ∀ r, r < s.length → runeStart (s.getD r 0) = true →
      ValidUtf8 (s.take r) ∧ ValidUtf8 (s.drop r) := by
  induction hv with
  | nil => intro r hr _; simp at hr
  | ascii b rest hb hrest ih =>
    intro r hr hrs
    rcases r with _ | r
    · exact ⟨ValidUtf8.nil, ValidUtf8.ascii b rest hb hrest⟩
    · obtain ⟨ht, hd⟩ := ih r (by simp at hr; omega) (by simpa using hrs)
      refine ⟨?_, by simpa using hd⟩
      simpa only [List.take_succ_cons] using ValidUtf8.ascii b _ hb ht
  | two b c1 rest hb1 hb2 hc1 hrest ih =>
    intro r hr hrs
    rcases r with _ | (_ | k)
    · exact ⟨ValidUtf8.nil, ValidUtf8.two b c1 rest hb1 hb2 hc1 hrest⟩
    · have : runeStart c1 = false := runeStart_of_cont c1 hc1.2 hc1.1
      simp [this] at hrs
    · obtain ⟨ht, hd⟩ := ih k (by simp at hr; omega) (by simpa using hrs)
      refine ⟨?_, by simpa using hd⟩
      simpa only [List.take_succ_cons] using ValidUtf8.two b c1 _ hb1 hb2 hc1 ht
  | three b c1 c2 rest hb1 hb2 hc1 hc2 hrest ih =>
    intro r hr hrs
    rcases r with _ | (_ | (_ | k))
    · exact ⟨ValidUtf8.nil, ValidUtf8.three b c1 c2 rest hb1 hb2 hc1 hc2 hrest⟩
    · have : runeStart c1 = false := runeStart_of_cont c1 hc1.2 hc1.1
      simp [this] at hrs
    · have : runeStart c2 = false := runeStart_of_cont c2 hc2.2 hc2.1
      simp [this] at hrs
    · obtain ⟨ht, hd⟩ := ih k (by simp at hr; omega) (by simpa using hrs)
      refine ⟨?_, by simpa using hd⟩
      simpa only [List.take_succ_cons] using ValidUtf8.three b c1 c2 _ hb1 hb2 hc1 hc2 ht
  | four b c1 c2 c3 rest hb1 hb2 hc1 hc2 hc3 hrest ih =>
    intro r hr hrs
    rcases r with _ | (_ | (_ | (_ | k)))
    · exact ⟨ValidUtf8.nil, ValidUtf8.four b c1 c2 c3 rest hb1 hb2 hc1 hc2 hc3 hrest⟩
    · have : runeStart c1 = false := runeStart_of_cont c1 hc1.2 hc1.1
      simp [this] at hrs
    · have : runeStart c2 = false := runeStart_of_cont c2 hc2.2 hc2.1
      simp [this] at hrs
    · have : runeStart c3 = false := runeStart_of_cont c3 hc3.2 hc3.1
      simp [this] at hrs
    · obtain ⟨ht, hd⟩ := ih k (by simp at hr; omega) (by simpa using hrs)
      refine ⟨?_, by simpa using hd⟩
      simpa only [List.take_succ_cons] using ValidUtf8.four b c1 c2 c3 _ hb1 hb2 hc1 hc2 hc3 ht

/-- The left-boundary invariant of the `splitText` loop: the next chunk
starts at index 0 or on a rune start. -/
def LeftOk (s : List Nat) (l : Nat) : Prop :=
  l = 0 ∨ (l < s.length ∧ runeStart (s.getD l 0) = true)

theorem validUtf8_drop (s : List Nat) (hv : ValidUtf8 s) {l : Nat} (hl : LeftOk s l) :
    ValidUtf8 (s.drop l) := by
  rcases hl with rfl | ⟨h1, h2⟩
  · simpa using hv
  · exact (validUtf8_split s hv l h1 h2).2

theorem dropLast_cons_ne {α : Type} (a : α) {l : List α} (h : l ≠ []) :
    (a :: l).dropLast = a :: l.dropLast := by
  cases l with
  | nil => exact absurd rfl h
  | cons b t => rfl

/-! ### The `splitText` loop -/

theorem splitTextAux_join (s : List Nat) (maxLen : Nat) :
    ∀ fuel l r chunks, l ≤ r → LeftOk s l →
      splitTextAux s maxLen fuel l r = some chunks → chunks.flatten = s.drop l := by
  intro fuel
  induction fuel with
  | zero => intro l r chunks _ _ h; simp [splitTextAux] at h
  | succ fuel ih =>
    intro l r chunks hlr hinv h
    simp only [splitTextAux] at h
    by_cases hr : r < s.length
    · rw [if_pos hr] at h
      cases hwb : walkBack s r with
      | none => rw [hwb] at h; cases h
      | some rr =>
        simp only [hwb] at h
        obtain ⟨hrr_le, hrr_len, hrr_rs⟩ := walkBack_some s r rr hwb
        have hl_rr : l ≤ rr := by
          rcases hinv with rfl | ⟨h1, h2⟩
          · exact Nat.zero_le rr
          · obtain ⟨rr2, hw2, hle2⟩ := walkBack_exists s r hr l hlr h2
            rw [hwb] at hw2
            cases hw2
            exact hle2
        cases hrec : splitTextAux s maxLen fuel rr (rr + maxLen) with
        | none => simp only [hrec] at h; cases h
        | some rest =>
          simp only [hrec] at h
          cases h
          have hjoin : rest.flatten = s.drop rr :=
            ih rr (rr + maxLen) rest (Nat.le_add_right _ _) (Or.inr ⟨hrr_len, hrr_rs⟩) hrec
          rw [List.flatten_cons, hjoin,
            show s.drop rr = (s.drop l).drop (rr - l) by rw [List.drop_drop]; congr 1; omega]
          exact List.take_append_drop _ _
    · rw [if_neg hr] at h
      cases h
      simp

theorem splitTextAux_good (s : List Nat) (maxLen : Nat) (hv : ValidUtf8 s) (hm : 4 ≤ maxLen) :
    ∀ fuel l, s.length - l < fuel → LeftOk s l →
      ∃ chunks, splitTextAux s maxLen fuel l (l + maxLen) = some chunks ∧
        chunks.flatten = s.drop l ∧
        chunks ≠ [] ∧
        (∀ c ∈ chunks.dropLast, maxLen - 3 ≤ c.length ∧ c.length ≤ maxLen) ∧
        (∀ c ∈ chunks, ValidUtf8 c) ∧
        (l < s.length → ∀ c ∈ chunks, c ≠ []) := by
  intro fuel
  induction fuel with
  | zero => intro l hfl _; omega
  | succ fuel ih =>
    intro l hfl hinv
    by_cases hr : l + maxLen < s.length
    · obtain ⟨j, hj_le, hj3, hj_len, hj_rs⟩ := nearest_start s hv (l + maxLen) hr
      obtain ⟨rr, hwb, hj_rr⟩ := walkBack_exists s (l + maxLen) hr j hj_le hj_rs
      obtain ⟨hrr_le, hrr_len, hrr_rs⟩ := walkBack_some s (l + maxLen) rr hwb
      have hl1 : l + 1 ≤ rr := by omega
      obtain ⟨rest, hrec, hjoin, hne, hlens, hval, hnonnil⟩ :=
        ih rr (by omega) (Or.inr ⟨hrr_len, hrr_rs⟩)
      have hheadlen : ((s.drop l).take (rr - l)).length = rr - l := by
        simp only [List.length_take, List.length_drop]
        omega
      refine ⟨((s.drop l).take (rr - l)) :: rest, ?_, ?_, by simp, ?_, ?_, ?_⟩
      · simp only [splitTextAux, if_pos hr, hwb, hrec]
      · rw [List.flatten_cons, hjoin,
          show s.drop rr = (s.drop l).drop (rr - l) by rw [List.drop_drop]; congr 1; omega]
        exact List.take_append_drop _ _
      · intro c hc
        rw [dropLast_cons_ne _ hne] at hc
        rcases List.mem_cons.mp hc with rfl | hc
        · rw [hheadlen]
          omega
        · exact hlens c hc
      · intro c hc
        rcases List.mem_cons.mp hc with rfl | hc
        · have hdl : ValidUtf8 (s.drop l) := validUtf8_drop s hv hinv
          have hidx : runeStart ((s.drop l).getD (rr - l) 0) = true := by
            rw [getD_drop, show l + (rr - l) = rr by omega]
            exact hrr_rs
          have hlen2 : rr - l < (s.drop l).length := by
            simp only [List.length_drop]
            omega
          exact (validUtf8_split _ hdl (rr - l) hlen2 hidx).1
        · exact hval c hc
      · intro _ c hc
        rcases List.mem_cons.mp hc with rfl | hc
        · exact List.ne_nil_of_length_pos (by omega)
        · exact hnonnil hrr_len c hc
    · refine ⟨[s.drop l], ?_, by simp, by simp, by simp, ?_, ?_⟩
      · simp only [splitTextAux, if_neg hr]
      · intro c hc
        rw [List.mem_singleton] at hc
        subst hc
        exact validUtf8_drop s hv hinv
      · intro hl c hc
        rw [List.mem_singleton] at hc
        subst hc
        exact List.ne_nil_of_length_pos (by simp only [List.length_drop]; omega)

theorem splitText_flatten (s : List Nat) (maxLen : Nat) (chunks : List (List Nat))
    (h : splitText s maxLen = some chunks) : chunks.flatten = s := by
  have := splitTextAux_join s maxLen (s.length + 1) 0 maxLen chunks
    (Nat.zero_le _) (Or.inl rfl) h
  simpa using this

theorem splitText_good (s : List Nat) (maxLen : Nat) (hv : ValidUtf8 s) (hm : 4 ≤ maxLen) :
    ∃ chunks, splitText s maxLen = some chunks ∧
      chunks.flatten = s ∧
      chunks ≠ [] ∧
      (∀ c ∈ chunks.dropLast, maxLen - 3 ≤ c.length ∧ c.length ≤ maxLen) ∧
      (∀ c ∈ chunks, ValidUtf8 c) ∧
      (s ≠ [] → ∀ c ∈ chunks, c ≠ []) := by
  obtain ⟨chunks, h1, h2, h3, h4, h5, h6⟩ :=
    splitTextAux_good s maxLen hv hm (s.length + 1) 0 (by omega) (Or.inl rfl)
  refine ⟨chunks, ?_, by simpa using h2, h3, h4, h5, ?_⟩
  · rw [Nat.zero_add] at h1
    exact h1
  · intro hs
    exact h6 (by cases s with | nil => exact absurd rfl hs | cons a t => simp)

/-! ### Escaping -/

theorem stringsReplaceFuel_single (p : Nat) (rep : List Nat) :
    ∀ (s : List Nat) (fuel : Nat), s.length ≤ fuel →
      stringsReplaceFuel fuel s [p] rep = s.flatMap (fun c => if c = p then rep else [c]) := by
  intro s
  induction s with
  | nil => intro fuel _; cases fuel <;> simp [stringsReplaceFuel]
  | cons c rest ih =>
    intro fuel hf
    cases fuel with
    | zero => simp at hf
    | succ fuel =>
      simp only [stringsReplaceFuel]
      by_cases hc : c = p
      · subst hc
        rw [if_pos ⟨by simp, by simp⟩]
        simp only [List.length_singleton, Nat.sub_self, List.drop_zero, List.flatMap_cons,
          if_pos rfl]
        rw [ih fuel (by simp at hf; omega)]
        simp
      · rw [if_neg (by simp [hc])]
        simp only [List.flatMap_cons, if_neg hc]
        rw [ih fuel (by simp at hf; omega)]
        simp

theorem stringsReplace_single (s : List Nat) (p : Nat) (rep : List Nat) :
    stringsReplace s [p] rep = s.flatMap (fun c => if c = p then rep else [c]) :=
  stringsReplaceFuel_single p rep s s.length (Nat.le_refl _)

theorem escByte_steps (c : Nat) :
    (((if c = 92 then [92, 92] else [c]).flatMap fun d => if d = 10 then [92, 110] else [d]).flatMap
      fun d => if d = 34 then [92, 34] else [d]) = escByte c := by
  by_cases h92 : c = 92
  · subst h92; simp [escByte]
  · by_cases h10 : c = 10
    · subst h10; simp [escByte]
    · by_cases h34 : c = 34
      · subst h34; simp [escByte]
      · simp [escByte, h92, h10, h34]

theorem pushEscape_eq_flatMap (t : List Nat) : pushEscape t = t.flatMap escByte := by
  show stringsReplace (stringsReplace (stringsReplace t [92] [92, 92]) [10] [92, 110])
      [34] [92, 34] = t.flatMap escByte
  rw [stringsReplace_single, stringsReplace_single, stringsReplace_single]
  induction t with
  | nil => rfl
  | cons c rest ih =>
    simp only [List.flatMap_cons, List.flatMap_append]
    rw [ih, escByte_steps]

theorem unescape_cons_ne (c : Nat) (l : List Nat) (h : ¬ c = 92) :
    unescape (c :: l) = c :: unescape l := by
  cases l with
  | nil => rfl
  | cons c2 rest => simp only [unescape, if_neg h]

theorem unescape_flatMap_escByte (t : List Nat) : unescape (t.flatMap escByte) = t := by
  induction t with
  | nil => rfl
  | cons c rest ih =>
    rw [List.flatMap_cons]
    by_cases h92 : c = 92
    · subst h92
      rw [show escByte 92 ++ rest.flatMap escByte = 92 :: 92 :: rest.flatMap escByte from by
        simp [escByte]]
      simp [unescape, ih]
    · by_cases h10 : c = 10
      · subst h10
        rw [show escByte 10 ++ rest.flatMap escByte = 92 :: 110 :: rest.flatMap escByte from by
          simp [escByte]]
        simp [unescape, ih]
      · by_cases h34 : c = 34
        · subst h34
          rw [show escByte 34 ++ rest.flatMap escByte = 92 :: 34 :: rest.flatMap escByte from by
            simp [escByte]]
          simp [unescape, ih]
        · rw [show escByte c = [c] by simp [escByte, h92, h10, h34],
            List.cons_append, List.nil_append, unescape_cons_ne c _ h92, ih]

theorem unescape_pushEscape (t : List Nat) : unescape (pushEscape t) = t := by
  rw [pushEscape_eq_flatMap]
  exact unescape_flatMap_escByte t

theorem validUtf8_append_ascii (x y : List Nat) (hx : ∀ b ∈ x, b < 128)
    (hy : ValidUtf8 y) : ValidUtf8 (x ++ y) := by
  induction x with
  | nil => simpa using hy
  | cons b rest ih =>
    exact ValidUtf8.ascii b _ (hx b (by simp)) (ih fun d hd => hx d (by simp [hd]))

theorem validUtf8_of_ascii (x : List Nat) (hx : ∀ b ∈ x, b < 128) : ValidUtf8 x := by
  simpa using validUtf8_append_ascii x [] hx ValidUtf8.nil

theorem escByte_ascii (b : Nat) (hb : b < 128) : ∀ x ∈ escByte b, x < 128 := by
  intro x hx
  unfold escByte at hx
  split_ifs at hx <;> simp at hx <;> omega

theorem escByte_eq_self (b : Nat) (hb : 128 ≤ b) : escByte b = [b] := by
  unfold escByte
  rw [if_neg (by omega), if_neg (by omega), if_neg (by omega)]

theorem pushEscape_valid (t : List Nat) (hv : ValidUtf8 t) : ValidUtf8 (pushEscape t) := by
  rw [pushEscape_eq_flatMap t]
  induction hv with
  | nil => exact ValidUtf8.nil
  | ascii b rest hb _ ih =>
    rw [List.flatMap_cons]
    exact validUtf8_append_ascii _ _ (escByte_ascii b hb) ih
  | two b c1 rest hb1 hb2 hc1 _ ih =>
    rw [List.flatMap_cons, List.flatMap_cons, escByte_eq_self b (by omega),
      escByte_eq_self c1 hc1.1]
    exact ValidUtf8.two b c1 _ hb1 hb2 hc1 ih
  | three b c1 c2 rest hb1 hb2 hc1 hc2 _ ih =>
    rw [List.flatMap_cons, List.flatMap_cons, List.flatMap_cons,
      escByte_eq_self b (by omega), escByte_eq_self c1 hc1.1, escByte_eq_self c2 hc2.1]
    exact ValidUtf8.three b c1 c2 _ hb1 hb2 hc1 hc2 ih
  | four b c1 c2 c3 rest hb1 hb2 hc1 hc2 hc3 _ ih =>
    rw [List.flatMap_cons, List.flatMap_cons, List.flatMap_cons, List.flatMap_cons,
      escByte_eq_self b (by omega), escByte_eq_self c1 hc1.1, escByte_eq_self c2 hc2.1,
      escByte_eq_self c3 hc3.1]
    exact ValidUtf8.four b c1 c2 c3 _ hb1 hb2 hc1 hc2 hc3 ih

/-! ### The batch partitioner -/

theorem div_ceil_step (a cs : Nat) (ha : 1 ≤ a) (hcs : 1 ≤ cs) :
    (a + cs - 1) / cs = (a - cs + cs - 1) / cs + 1 := by
  by_cases hac : a ≤ cs
  · have h2 : a - cs = 0 := by omega
    rw [h2]
    have h3 : (a + cs - 1) / cs = 1 := by
      rw [show a + cs - 1 = (a - 1) + cs by omega, Nat.add_div_right _ (by omega),
        Nat.div_eq_of_lt (by omega)]
    have h4 : (0 + cs - 1) / cs = 0 := Nat.div_eq_of_lt (by omega)
    omega
  · rw [show a + cs - 1 = (a - cs + cs - 1) + cs by omega, Nat.add_div_right _ (by omega)]

theorem divideAux_flatten (records : List IngestBulkRecord) (chunkSize : Nat)
    (hcs : 1 ≤ chunkSize) :
    ∀ fuel i, records.length - i < fuel →
      (divideAux records chunkSize fuel i).flatten = records.drop i := by
  intro fuel
  induction fuel with
  | zero => intro i h; omega
  | succ fuel ih =>
    intro i h
    simp only [divideAux]
    by_cases hi : i < records.length
    · rw [if_pos hi, List.flatten_cons, ih (i + chunkSize) (by omega)]
      by_cases hend : records.length < i + chunkSize
      · rw [if_pos hend]
        have h1 : (records.drop i).take (records.length - i) = records.drop i :=
          List.take_of_length_le (by simp)
        have h2 : List.drop (i + chunkSize) records = [] :=
          List.drop_eq_nil_iff.mpr (by omega)
        rw [h1, h2, List.append_nil]
      · rw [if_neg hend, show i + chunkSize - i = chunkSize by omega,
          ← List.drop_drop, List.take_append_drop]
    · rw [if_neg hi, List.drop_eq_nil_iff.mpr (by omega)]
      rfl

theorem divideAux_length (records : List IngestBulkRecord) (chunkSize : Nat)
    (hcs : 1 ≤ chunkSize) :
    ∀ fuel i, records.length - i < fuel →
      (divideAux records chunkSize fuel i).length =
        (records.length - i + chunkSize - 1) / chunkSize := by
  intro fuel
  induction fuel with
  | zero => intro i h; omega
  | succ fuel ih =>
    intro i h
    simp only [divideAux]
    by_cases hi : i < records.length
    · rw [if_pos hi]
      simp only [List.length_cons]
      rw [ih (i + chunkSize) (by omega),
        show records.length - (i + chunkSize) = records.length - i - chunkSize by omega]
      have := div_ceil_step (records.length - i) chunkSize (by omega) hcs
      omega
    · rw [if_neg hi]
      simp only [List.length_nil]
      rw [Nat.div_eq_of_lt (by omega)]

theorem divideAux_ne_nil (records : List IngestBulkRecord) (chunkSize : Nat)
    (hcs : 1 ≤ chunkSize) :
    ∀ fuel i part, part ∈ divideAux records chunkSize fuel i → part ≠ [] := by
  intro fuel
  induction fuel with
  | zero => intro i part h; simp [divideAux] at h
  | succ fuel ih =>
    intro i part h
    simp only [divideAux] at h
    by_cases hi : i < records.length
    · rw [if_pos hi] at h
      rcases List.mem_cons.mp h with rfl | h
      · apply List.ne_nil_of_length_pos
        simp only [List.length_take, List.length_drop]
        split_ifs <;> omega
      · exact ih (i + chunkSize) part h
    · rw [if_neg hi] at h
      simp at h

theorem divideAux_getElem (records : List IngestBulkRecord) (chunkSize : Nat)
    (hcs : 1 ≤ chunkSize) :
    ∀ fuel i k, records.length - i < fuel →
      (divideAux records chunkSize fuel i)[k]? =
        if i + k * chunkSize < records.length then
          some ((records.drop (i + k * chunkSize)).take
            ((if records.length < i + k * chunkSize + chunkSize then records.length
              else i + k * chunkSize + chunkSize) - (i + k * chunkSize)))
        else none := by
  intro fuel
  induction fuel with
  | zero => intro i k h; omega
  | succ fuel ih =>
    intro i k h
    simp only [divideAux]
    by_cases hi : i < records.length
    · rw [if_pos hi]
      cases k with
      | zero =>
        simp only [List.getElem?_cons_zero]
        rw [show i + 0 * chunkSize = i by omega, if_pos hi]
      | succ k =>
        simp only [List.getElem?_cons_succ]
        rw [ih (i + chunkSize) k (by omega),
          show i + chunkSize + k * chunkSize = i + (k + 1) * chunkSize by ring]
    · rw [if_neg hi, if_neg (by omega)]
      simp

theorem divideIngestBulkRecords_flatten (records : List IngestBulkRecord) (p : Nat)
    (hp : 1 ≤ p) : (divideIngestBulkRecords records p).flatten = records := by
  by_cases hlen : records.length = 0
  · rw [List.length_eq_zero.mp hlen]
    rfl
  · have hcs : 1 ≤ (records.length + p - 1) / p :=
      (Nat.one_le_div_iff (by omega)).mpr (by omega)
    have := divideAux_flatten records _ hcs (records.length + 1) 0 (by omega)
    simpa [divideIngestBulkRecords] using this

theorem divideIngestBulkRecords_length (records : List IngestBulkRecord) (p : Nat)
    (hp : 1 ≤ p) (hlen : 1 ≤ records.length) :
    (divideIngestBulkRecords records p).length =
      (records.length + (records.length + p - 1) / p - 1) / ((records.length + p - 1) / p) := by
  have hcs : 1 ≤ (records.length + p - 1) / p :=
    (Nat.one_le_div_iff (by omega)).mpr (by omega)
  have := divideAux_length records _ hcs (records.length + 1) 0 (by omega)
  simpa [divideIngestBulkRecords] using this

theorem divideAux_nil (chunkSize fuel i : Nat) : divideAux [] chunkSize fuel i = [] := by
  cases fuel <;> simp [divideAux]

theorem divideIngestBulkRecords_nil (p : Nat) : divideIngestBulkRecords [] p = [] := by
  simp [divideIngestBulkRecords, divideAux_nil]

/-! ### The concurrent error collection -/

theorem flatten_count_set (x : IngestBulkError) :
    ∀ (pending : List (List IngestBulkError)) (w : Nat) (e : IngestBulkError)
      (rest : List IngestBulkError),
      pending.getD w [] = e :: rest →
      pending.flatten.count x = ((pending.set w rest).flatten).count x + List.count x [e] := by
  intro pending
  induction pending with
  | nil => intro w e rest h; simp at h
  | cons hd tl ih =>
    intro w e rest h
    cases w with
    | zero =>
      simp only [List.getD_cons_zero] at h
      subst h
      simp only [List.set_cons_zero, List.flatten_cons, List.count_append, List.count_cons,
        List.count_nil]
      ring
    | succ w =>
      simp only [List.getD_cons_succ] at h
      rw [List.set_cons_succ]
      simp only [List.flatten_cons, List.count_append]
      rw [ih w e rest h]
      ring

theorem flatten_eq_nil_of_all_isEmpty (pending : List (List IngestBulkError))
    (h : pending.all List.isEmpty = true) : pending.flatten = [] := by
  induction pending with
  | nil => rfl
  | cons hd tl ih =>
    simp only [List.all_cons, Bool.and_eq_true] at h
    rw [List.flatten_cons, List.isEmpty_iff.mp h.1, ih h.2]
    rfl

theorem runBulkSched_count (x : IngestBulkError) :
    ∀ (sched : List Nat) (pending : List (List IngestBulkError))
      (acc r : List IngestBulkError),
      runBulkSched sched pending acc = some r →
      r.count x = acc.count x + pending.flatten.count x := by
  intro sched
  induction sched with
  | nil =>
    intro pending acc r h
    simp only [runBulkSched] at h
    by_cases hall : pending.all List.isEmpty
    · rw [if_pos hall] at h
      cases h
      rw [flatten_eq_nil_of_all_isEmpty pending hall]
      simp
    · rw [if_neg hall] at h
      cases h
  | cons w sched ih =>
    intro pending acc r h
    simp only [runBulkSched, runBulkStep] at h
    cases hw : pending.getD w [] with
    | nil => simp only [hw] at h; cases h
    | cons e rest =>
      simp only [hw] at h
      have := ih (pending.set w rest) (acc ++ [e]) r h
      rw [this, List.count_append, flatten_count_set x pending w e rest hw]
      ring

theorem runBulkSched_incomplete (pending : List (List IngestBulkError))
    (acc : List IngestBulkError) (h : ∃ l ∈ pending, l ≠ []) :
    runBulkSched [] pending acc = none := by
  obtain ⟨l, hl, hne⟩ := h
  simp only [runBulkSched]
  rw [if_neg]
  intro hall
  exact hne (List.isEmpty_iff.mp (List.all_eq_true.mp hall l hl))

/-! ### Concrete example data used by witnesses and counterexamples -/

def exRecords3 : List IngestBulkRecord :=
  [⟨[65], [120]⟩, ⟨[66], [121]⟩, ⟨[67], [122]⟩]

def exRecords5 : List IngestBulkRecord :=
  [⟨[65], []⟩, ⟨[66], []⟩, ⟨[67], []⟩, ⟨[68], []⟩, ⟨[69], []⟩]

def exErrA : IngestBulkError := ⟨[65], ErrKind.transport⟩

def exErrsWs : List (List IngestBulkError) :=
  [[⟨[65], ErrKind.transport⟩, ⟨[66], ErrKind.closed⟩], [⟨[67], ErrKind.transport⟩]]

def exErrsRes : List IngestBulkError :=
  [⟨[65], ErrKind.transport⟩, ⟨[67], ErrKind.transport⟩, ⟨[66], ErrKind.closed⟩]

/-! ### The claims -/

/-- C1: concatenating the chunks emitted by `splitText` reproduces the
input exactly whenever the Go loop terminates; for valid UTF-8 input and
a chunk budget of at least one rune (4 bytes) the loop does terminate,
every chunk is valid standalone UTF-8 (no boundary inside a multi-byte
character), and for `Push` the escaping is reversed by `unescape`, so the
original text is recovered from the emitted chunks. -/
theorem claim1_split_roundtrip :
    (∀ (s : List Nat) (maxLen : Nat) (chunks : List (List Nat)),
        splitText s maxLen = some chunks → chunks.flatten = s) ∧
    (∀ (s : List Nat) (maxLen : Nat), ValidUtf8 s → 4 ≤ maxLen →
        ∃ chunks, splitText s maxLen = some chunks ∧ chunks.flatten = s ∧
          ∀ c ∈ chunks, ValidUtf8 c) ∧
    (∀ (t : List Nat) (maxLen : Nat), ValidUtf8 t → 4 ≤ maxLen →
        ∃ chunks, splitText (pushEscape t) maxLen = some chunks ∧
          unescape chunks.flatten = t ∧ ∀ c ∈ chunks, ValidUtf8 c) := by
  refine ⟨fun s maxLen chunks h => splitText_flatten s maxLen chunks h, ?_, ?_⟩
  · intro s maxLen hv hm
    obtain ⟨chunks, h1, h2, _, _, h5, _⟩ := splitText_good s maxLen hv hm
    exact ⟨chunks, h1, h2, h5⟩
  · intro t maxLen hv hm
    obtain ⟨chunks, h1, h2, _, _, h5, _⟩ :=
      splitText_good (pushEscape t) maxLen (pushEscape_valid t hv) hm
    exact ⟨chunks, h1, by rw [h2]; exact unescape_pushEscape t, h5⟩

/-- Witness for C1 at concrete inputs. -/
theorem claim1_split_roundtrip_witness :
    ValidUtf8 [195, 169, 97] ∧ 4 ≤ 4 ∧
    (∃ chunks, splitText [195, 169, 97] 4 = some chunks ∧
      chunks.flatten = [195, 169, 97] ∧ ∀ c ∈ chunks, ValidUtf8 c) ∧
    (∃ chunks, splitText (pushEscape [34, 104, 105, 34]) 4 = some chunks ∧
      unescape chunks.flatten = [34, 104, 105, 34] ∧ ∀ c ∈ chunks, ValidUtf8 c) := by
  have hv : ValidUtf8 [195, 169, 97] :=
    ValidUtf8.two 195 169 [97] (by omega) (by omega) ⟨by omega, by omega⟩
      (ValidUtf8.ascii 97 [] (by omega) ValidUtf8.nil)
  have hv2 : ValidUtf8 [34, 104, 105, 34] := validUtf8_of_ascii _ (by decide)
  exact ⟨hv, by omega, claim1_split_roundtrip.2.1 [195, 169, 97] 4 hv (by omega),
    claim1_split_roundtrip.2.2 [34, 104, 105, 34] 4 hv2 (by omega)⟩

/-- C2: for every record list and every effective parallelism (at least 1
after the clamp), the partitions of `divideIngestBulkRecords` are
contiguous, order-preserving, cover the input exactly once (their
concatenation is the input), and the partition lengths sum to the input
length. -/
theorem claim2_partition_cover (records : List IngestBulkRecord) (p : Nat) (hp : 1 ≤ p) :
    (divideIngestBulkRecords records p).flatten = records ∧
    ((divideIngestBulkRecords records p).map List.length).sum = records.length := by
  refine ⟨divideIngestBulkRecords_flatten records p hp, ?_⟩
  rw [← List.length_flatten, divideIngestBulkRecords_flatten records p hp]

/-- Witness for C2 at a concrete batch. -/
theorem claim2_partition_cover_witness :
    1 ≤ 2 ∧ (divideIngestBulkRecords exRecords3 2).flatten = exRecords3 ∧
    ((divideIngestBulkRecords exRecords3 2).map List.length).sum = exRecords3.length :=
  ⟨by omega, (claim2_partition_cover exRecords3 2 (by omega)).1,
    (claim2_partition_cover exRecords3 2 (by omega)).2⟩

/-- C3 counterexample: with an empty record list and requested
parallelism 0 the code spawns zero worker partitions, not one, so the
claim's clause "when p ≤ 0 the effective parallelism is 1" fails. -/
theorem claim3_counterexample :
    bulkPushPartitions [] 0 = [] ∧ (bulkPushPartitions [] 0).length ≠ 1 :=
  ⟨by decide, by decide⟩

/-- C3 (amended): for every NON-EMPTY record list, a requested
parallelism `p ≤ 0` yields exactly one partition, `p` greater than the
record count yields one partition per record, and (for every `p` and
every record list) no spawned partition is empty. -/
theorem claim3_parallelism_clamp (records : List IngestBulkRecord)
    (hne : records ≠ []) (p : Int) :
    (p ≤ 0 → (bulkPushPartitions records p).length = 1) ∧
    ((records.length : Int) < p → (bulkPushPartitions records p).length = records.length) ∧
    (∀ part ∈ bulkPushPartitions records p, part ≠ []) := by
  have hlen : 1 ≤ records.length := List.length_pos.mpr hne
  refine ⟨?_, ?_, ?_⟩
  · intro hp
    simp only [bulkPushPartitions, if_pos hp, Int.toNat_one]
    rw [divideIngestBulkRecords_length records 1 (Nat.le_refl 1) hlen]
    have hcs : (records.length + 1 - 1) / 1 = records.length := by simp
    rw [hcs, show records.length + records.length - 1 = (records.length - 1) + records.length
        by omega,
      Nat.add_div_right _ (by omega), Nat.div_eq_of_lt (by omega)]
  · intro hp
    have hp0 : ¬ p ≤ 0 := by omega
    have hpt : records.length + 1 ≤ p.toNat := by omega
    simp only [bulkPushPartitions, if_neg hp0]
    rw [divideIngestBulkRecords_length records p.toNat (by omega) hlen]
    have hcs : (records.length + p.toNat - 1) / p.toNat = 1 := by
      rw [show records.length + p.toNat - 1 = (records.length - 1) + p.toNat by omega,
        Nat.add_div_right _ (by omega), Nat.div_eq_of_lt (by omega)]
    rw [hcs]
    simp
  · intro part hpart
    have hq : 1 ≤ (if p ≤ 0 then (1 : Int) else p).toNat := by split_ifs <;> omega
    have hcs : 1 ≤ (records.length + (if p ≤ 0 then (1 : Int) else p).toNat - 1) /
        (if p ≤ 0 then (1 : Int) else p).toNat :=
      (Nat.one_le_div_iff (by omega)).mpr (by omega)
    exact divideAux_ne_nil records _ hcs (records.length + 1) 0 part hpart

/-- Witness for C3's amended statement at a concrete batch. -/
theorem claim3_parallelism_clamp_witness :
    exRecords3 ≠ [] ∧ (bulkPushPartitions exRecords3 (-1)).length = 1 ∧
    (bulkPushPartitions exRecords3 5).length = exRecords3.length :=
  ⟨by decide, (claim3_parallelism_clamp exRecords3 (by decide) (-1)).1 (by decide),
    (claim3_parallelism_clamp exRecords3 (by decide) 5).2.1 (by decide)⟩

/-- C4: on an open connection a record whose `Push` fails on any chunk
yields exactly one error and the worker proceeds to the next record
(first conjunct: two failing chunks, one error, next record still
processed); but when the worker's connection is nil the missing
`continue` after the `ErrClosed` append lets the worker fall through to
`Push`, so a record whose transmission fails receives TWO errors —
contradicting "not more than one per record" (second conjunct evaluates
the code at that failing input). -/
theorem claim4_double_error_on_nil_conn :
    bulkPushWorker true []
        [(⟨[66], [121]⟩, ⟨[⟨some ErrKind.transport, none⟩, ⟨some ErrKind.transport, none⟩],
            none⟩),
          (⟨[67], [122]⟩, ⟨[], none⟩)] =
      [⟨[66], ErrKind.transport⟩] ∧
    bulkPushWorker false []
        [(⟨[66], [121]⟩, ⟨[⟨some ErrKind.transport, none⟩], none⟩)] =
      [⟨[66], ErrKind.closed⟩, ⟨[66], ErrKind.transport⟩] :=
  ⟨by decide, by decide⟩

/-- C5: when every connection attempt fails, `BulkPush` does NOT return
exactly one `ErrClosed`-tagged error per record: the worker appends
`ErrClosed` but still attempts the `Push` (missing `continue`), so a
record whose fallback transmission also fails gets a second,
transport-tagged error — the error list for one record has length 2. -/
theorem claim5_not_single_closed_error :
    bulkPushErrors [⟨[65], [120]⟩] 1 (fun _ => false)
        (fun _ => ⟨[⟨some ErrKind.transport, none⟩], none⟩) =
      [⟨[65], ErrKind.closed⟩, ⟨[65], ErrKind.transport⟩] ∧
    (bulkPushErrors [⟨[65], [120]⟩] 1 (fun _ => false)
        (fun _ => ⟨[⟨some ErrKind.transport, none⟩], none⟩)).length ≠ 1 :=
  ⟨by decide, by decide⟩

/-- C6: `Push` escapes its text before chunking by replacing, in order,
backslash by double backslash, newline by the literal backslash-n
escape, and double quote by backslash-quote; in particular
`line1<newline>line2` (bytes 10 for the newline) encodes to
`line1\nline2` (bytes 92, 110) and `"hi"` encodes to `\"hi\"`. -/
theorem claim6_escape_order :
    (∀ t, pushEscape t =
      stringsReplace (stringsReplace (stringsReplace t [92] [92, 92]) [10] [92, 110])
        [34] [92, 34]) ∧
    pushEscape [108, 105, 110, 101, 49, 10, 108, 105, 110, 101, 50] =
      [108, 105, 110, 101, 49, 92, 110, 108, 105, 110, 101, 50] ∧
    pushEscape [34, 104, 105, 34] = [92, 34, 104, 105, 92, 34] :=
  ⟨fun _ => rfl, by decide, by decide⟩

/-- C7 counterexample: five records at parallelism 4 produce 3
partitions (chunk size ceil(5/4) = 2), not the 4 partitions the claim
requires. -/
theorem claim7_counterexample :
    (divideIngestBulkRecords exRecords5 4).length = 3 ∧
    (divideIngestBulkRecords exRecords5 4).length ≠ 4 :=
  ⟨by decide, by decide⟩

/-- C7 (amended): for a non-empty record list and `1 ≤ p ≤ len`, with
`cs = ceil(len/p)` the partitioner returns exactly `ceil(len/cs)`
partitions — at most `p`, but possibly fewer — and partition `k` is
`records[k*cs : min((k+1)*cs, len)]`. -/
theorem claim7_partition_formula (records : List IngestBulkRecord) (p : Nat)
    (hne : records ≠ []) (hp1 : 1 ≤ p) (hp2 : p ≤ records.length) :
    (divideIngestBulkRecords records p).length =
      (records.length + (records.length + p - 1) / p - 1) /
        ((records.length + p - 1) / p) ∧
    (records.length + (records.length + p - 1) / p - 1) /
        ((records.length + p - 1) / p) ≤ p ∧
    ∀ k, (divideIngestBulkRecords records p)[k]? =
      if k * ((records.length + p - 1) / p) < records.length then
        some ((records.drop (k * ((records.length + p - 1) / p))).take
          (min ((k + 1) * ((records.length + p - 1) / p)) records.length
            - k * ((records.length + p - 1) / p)))
      else none := by
  have hlen : 1 ≤ records.length := List.length_pos.mpr hne
  have hcs : 1 ≤ (records.length + p - 1) / p :=
    (Nat.one_le_div_iff (by omega)).mpr (by omega)
  refine ⟨divideIngestBulkRecords_length records p hp1 hlen, ?_, ?_⟩
  · have hmod := Nat.div_add_mod (records.length + p - 1) p
    have hmodlt : (records.length + p - 1) % p < p := Nat.mod_lt _ (by omega)
    have hcover : records.length ≤ p * ((records.length + p - 1) / p) := by omega
    have hsucc : (p + 1) * ((records.length + p - 1) / p) =
        p * ((records.length + p - 1) / p) + (records.length + p - 1) / p :=
      Nat.succ_mul p ((records.length + p - 1) / p)
    have hdiv : (records.length + (records.length + p - 1) / p - 1) /
        ((records.length + p - 1) / p) < p + 1 := by
      rw [Nat.div_lt_iff_lt_mul (by omega)]
      omega
    omega
  · intro k
    rw [show (k + 1) * ((records.length + p - 1) / p) =
        k * ((records.length + p - 1) / p) + (records.length + p - 1) / p by ring,
      show min (k * ((records.length + p - 1) / p) + (records.length + p - 1) / p)
          records.length =
        (if records.length <
            k * ((records.length + p - 1) / p) + (records.length + p - 1) / p
          then records.length
          else k * ((records.length + p - 1) / p) + (records.length + p - 1) / p) from by
        split_ifs <;> omega]
    have h := divideAux_getElem records ((records.length + p - 1) / p) hcs
      (records.length + 1) 0 k (by omega)
    rw [Nat.zero_add] at h
    exact h

/-- Witness for C7's amended statement at a concrete batch. -/
theorem claim7_partition_formula_witness :
    exRecords5 ≠ [] ∧ (divideIngestBulkRecords exRecords5 4).length =
      (exRecords5.length + (exRecords5.length + 4 - 1) / 4 - 1) /
        ((exRecords5.length + 4 - 1) / 4) :=
  ⟨by decide, (claim7_partition_formula exRecords5 4 (by decide) (by omega) (by decide)).1⟩

/-- C8: `BulkPush` and `BulkPop` on an empty record list produce zero
partitions, spawn zero workers, and return an empty error list, for
every requested parallelism and every connection/transport behaviour. -/
theorem claim8_empty_batch :
    (∀ q : Nat, divideIngestBulkRecords [] q = []) ∧
    (∀ p : Int, (bulkPushPartitions [] p).length = 0) ∧
    (∀ (p : Int) (connOk : Nat → Bool) (io : IngestBulkRecord → RecordOutcome),
        bulkPushErrors [] p connOk io = []) ∧
    (∀ (p : Int) (connOk : Nat → Bool) (io : IngestBulkRecord → ChunkOutcome),
        bulkPopErrors [] p connOk io = []) := by
  refine ⟨fun q => divideIngestBulkRecords_nil q, ?_, ?_, ?_⟩
  · intro p
    simp [bulkPushPartitions, divideIngestBulkRecords_nil]
  · intro p connOk io
    simp [bulkPushErrors, bulkPushPartitions, divideIngestBulkRecords_nil]
  · intro p connOk io
    simp [bulkPopErrors, bulkPushPartitions, divideIngestBulkRecords_nil]

/-- C9: with each `addBulkError` an atomic append (it holds the mutex for
the whole append), every interleaving of the workers' appends that runs
to completion yields an error collection containing each error exactly
as many times as the workers produced it (none lost, none duplicated);
and no result is returned while some worker still has errors to append
(the `WaitGroup` join). -/
theorem claim9_error_collection :
    (∀ (sched : List Nat) (ws : List (List IngestBulkError)) (r : List IngestBulkError),
        runBulkSched sched ws [] = some r →
        ∀ x, r.count x = ws.flatten.count x) ∧
    (∀ (pending : List (List IngestBulkError)) (acc : List IngestBulkError),
        (∃ l ∈ pending, l ≠ []) → runBulkSched [] pending acc = none) := by
  constructor
  · intro sched ws r h x
    have := runBulkSched_count x sched ws [] r h
    simpa using this
  · exact fun pending acc h => runBulkSched_incomplete pending acc h

/-- Witness for C9 at a concrete two-worker interleaving. -/
theorem claim9_error_collection_witness :
    runBulkSched [0, 1, 0] exErrsWs [] = some exErrsRes ∧
    List.count exErrA exErrsRes = List.count exErrA exErrsWs.flatten :=
  ⟨by decide, claim9_error_collection.1 [0, 1, 0] exErrsWs exErrsRes (by decide) exErrA⟩

/-- C10 counterexample: the empty string is valid UTF-8 and 4 ≤ maxLen,
yet `splitText` emits a single EMPTY chunk, refuting "every emitted
chunk is non-empty". -/
theorem claim10_counterexample :
    ValidUtf8 [] ∧ splitText [] 4 = some [[]] :=
  ⟨ValidUtf8.nil, by decide⟩

/-- C10 (amended): for valid UTF-8 input and `maxLen ≥ 4`, `splitText`
terminates without indexing outside the string; every chunk except the
last has length between `maxLen - 3` and `maxLen` (the backward walk
moves at most 3 bytes, the left index strictly increases), and for
NON-EMPTY input every emitted chunk is non-empty (empty input yields one
empty chunk).  The preconditions are required: a valid 2-byte character
with `maxLen = 1`, or 4 consecutive continuation bytes with
`maxLen = 4`, leave the Go loop spinning forever (modelled as `none`). -/
theorem claim10_termination (s : List Nat) (maxLen : Nat) (hv : ValidUtf8 s)
    (hm : 4 ≤ maxLen) :
    (∃ chunks, splitText s maxLen = some chunks ∧ chunks ≠ [] ∧
      (∀ c ∈ chunks.dropLast, maxLen - 3 ≤ c.length ∧ c.length ≤ maxLen) ∧
      (s ≠ [] → ∀ c ∈ chunks, c ≠ [])) ∧
    splitText [194, 128] 1 = none ∧
    splitText [192, 128, 128, 128, 128] 4 = none := by
  refine ⟨?_, by decide, by decide⟩
  obtain ⟨chunks, h1, _, h3, h4, _, h6⟩ := splitText_good s maxLen hv hm
  exact ⟨chunks, h1, h3, h4, h6⟩

/-- Witness for C10's amended statement at a concrete input. -/
theorem claim10_termination_witness :
    ValidUtf8 [195, 169] ∧ 4 ≤ 5 ∧
    (∃ chunks, splitText [195, 169] 5 = some chunks ∧ chunks ≠ [] ∧
      (∀ c ∈ chunks.dropLast, 5 - 3 ≤ c.length ∧ c.length ≤ 5) ∧
      ([195, 169] ≠ ([] : List Nat) → ∀ c ∈ chunks, c ≠ [])) := by
  have hv : ValidUtf8 [195, 169] :=
    ValidUtf8.two 195 169 [] (by omega) (by omega) ⟨by omega, by omega⟩ ValidUtf8.nil
  exact ⟨hv, by omega, (claim10_termination [195, 169] 5 hv (by omega)).1⟩

end Sonic
